import Mathlib

/-!
# Verification of the battleship-zk commitment / proof pipeline

Shallow embedding of the Go sources of `battleship-zk`:

* `internal/merkle` (fixed MiMC Merkle tree: `BuildFixedTree`, `Tree.Path`,
  `Tree.Root`, `feBytes`, `HashLeafMiMC`, `HashNodeMiMC`),
* `internal/game/board.go` (`Board`, `Validate`, `Flatten`,
  `GenerateRandomBoard`),
* `internal/zk` (`ShotCircuit.Define` — the salted variant actually compiled
  against by `setup.go`, which assigns the `Salt`/`Row`/`Col` fields —
  `EnsureShotKeys`, `ProveShot`, `VerifyShot`),
* `internal/app/service.go` (`Commit`, `Shoot`, `VerifyWithRoot`).

External library calls (gnark circuit compilation, Groth16 setup / prove /
verify, file IO, the OS random source) are modelled as explicit parameters:
each fallible external step is an `Except String _` / `Option String`
argument, so the control flow of the Go function around those calls is
embedded exactly while the library internals stay abstract.  The MiMC hash
itself is likewise a function parameter wherever the Go code only *uses* it
(the Go code takes `hashMerge` as a function argument already).

Machine integers: Go `*big.Int` values are embedded as `ℤ`, `uint8` and
`int` board/coordinate values as `ℕ` (with explicit out-of-range guards kept
where the Go code has them), and BN254 scalar-field circuit variables as
`ZMod bn254`.
-/

namespace BattleshipZK

/-- Order of the BN254 scalar field (`ecc.BN254.ScalarField()` in gnark),
the field over which the shot circuit is compiled. -/
def bn254 : ℕ := 21888242871839275222246405745257275088548364400416034343698204186575808495617

instance : NeZero bn254 := ⟨by norm_num [bn254]⟩

/-- Circuit variables of the shot circuit live in the BN254 scalar field. -/
abbrev F : Type := ZMod bn254

/-- Go `MerkleDepth = 7` from `internal/zk/shot_circuit.go` (128 leaves). -/
abbrev MerkleDepth : ℕ := 7

/-! ## Byte/hex encoding helpers (`internal/merkle`, `fmt "%x"`, `big.Int`) -/

/-- Go `big.Int.SetBytes`: interpret a byte slice as a big-endian unsigned
integer. -/
def natFromBytes (bs : List ℕ) : ℕ :=
  bs.foldl (fun a b => a * 256 + b) 0

/-- Big-endian fixed-width byte encoding of a natural number
(low byte last). -/
def natToBytesBE : ℕ → ℕ → List ℕ
  | 0, _ => []
  | d + 1, n => natToBytesBE d (n / 256) ++ [n % 256]

/-- Go `feBytes` from `internal/merkle`: encode a field element (a non-negative
`big.Int` below `2^256`) as exactly 32 big-endian bytes.  `x.Bytes()` in Go
drops the sign, so the embedding takes the absolute value of the `ℤ` input
at call sites. -/
def feBytes (x : ℕ) : List ℕ := natToBytesBE 32 x

/-- Hex digit character (lowercase), as produced by Go `fmt "%x"`. -/
def hexChar (d : ℕ) : Char :=
  if d < 10 then Char.ofNat (48 + d) else Char.ofNat (87 + d)

/-- Accumulating core of the hex printer (low digit first into the
accumulator). -/
def natToHexAux : ℕ → List Char → List Char
  | 0, acc => acc
  | n + 1, acc =>
    natToHexAux ((n + 1) / 16) (hexChar ((n + 1) % 16) :: acc)
decreasing_by exact Nat.div_lt_self (Nat.succ_pos n) (by norm_num)

/-- Go `fmt.Sprintf("%x", n)` for a non-negative `big.Int`. -/
def natToHex (n : ℕ) : String :=
  if n = 0 then "0" else String.mk (natToHexAux n [])

/-- Go `fmt.Sprintf("%x", z)` for a `big.Int` (negative values print as
`-hex`). -/
def intToHex (z : ℤ) : String :=
  if z < 0 then "-" ++ natToHex z.natAbs else natToHex z.natAbs

/-- Value of one hex digit character, accepting both cases
(`big.Int.SetString` with base 16). -/
def hexDigitVal (ch : Char) : Option ℕ :=
  if 48 ≤ ch.toNat ∧ ch.toNat ≤ 57 then some (ch.toNat - 48)
  else if 97 ≤ ch.toNat ∧ ch.toNat ≤ 102 then some (ch.toNat - 87)
  else if 65 ≤ ch.toNat ∧ ch.toNat ≤ 70 then some (ch.toNat - 55)
  else none

/-- Go `big.Int.SetString(s, 16)` on a sign-free hex string: `none` on the
empty string or on any non-hex character. -/
def parseHexNat (s : String) : Option ℕ :=
  if s.isEmpty then none
  else
    s.data.foldl
      (fun acc ch => acc.bind fun a => (hexDigitVal ch).map fun d => a * 16 + d)
      (some 0)

/-! ## Fixed Merkle tree (`internal/merkle`, `src/unnamed/part_004`)

Tree node values are Go `*big.Int`, embedded as `ℤ`.  The node hash
`hashMerge` is a function argument in the Go source already; the leaf hash
`HashLeafMiMC` (a wrapper around the external gnark-crypto MiMC digest) is
likewise passed as a parameter `hashLeaf` here. -/

/-- Go `merkle.Tree`: levels stored bottom-up, `levels[0]` the hashed leaves,
`levels[depth]` the root level. -/
structure Tree where
  depth : ℕ
  levels : List (List ℤ)
deriving DecidableEq

/-- One bottom-up merge step of `BuildFixedTree`: hash adjacent pairs
(`up[i] = hashMerge(prev[2i], prev[2i+1])`). -/
def mergeLevel (hashMerge : ℤ → ℤ → ℤ) : List ℤ → List ℤ
  | a :: b :: rest => hashMerge a b :: mergeLevel hashMerge rest
  | _ => []

/-- The `for n > 1` loop of `BuildFixedTree`, with the loop-iteration
count made structural: the level length halves on every pass, so a fuel of
`cur.length` can never be exhausted before the loop guard `n > 1` stops
the loop (the `fuel = 0` arm is unreachable from `buildLevels`). -/
def buildLevelsAux (hashMerge : ℤ → ℤ → ℤ) : ℕ → List ℤ → List (List ℤ)
  | 0, cur => [cur]
  | fuel + 1, cur =>
    if cur.length ≤ 1 then [cur]
    else cur :: buildLevelsAux hashMerge fuel (mergeLevel hashMerge cur)

/-- Stack of levels from the current level up to the single root node. -/
def buildLevels (hashMerge : ℤ → ℤ → ℤ) (cur : List ℤ) : List (List ℤ) :=
  buildLevelsAux hashMerge cur.length cur

/-- Go `merkle.BuildFixedTree(leavesBits, size, padLeaf, hashMerge)`.
Level 0 hashes the first `len(leavesBits)` slots with the leaf hash and
fills the rest with `padLeaf`; levels are then merged up to the root.
The Go power-of-two guard is the bitmask test `size&(size-1) != 0`
(note that `size = 0` passes it). -/
def buildFixedTree (hashLeaf : ℕ → ℤ) (hashMerge : ℤ → ℤ → ℤ)
    (leavesBits : List ℕ) (size : ℕ) (padLeaf : ℤ) : Except String Tree :=
  if size &&& (size - 1) ≠ 0 then .error ("size must be power of two")
  else if leavesBits.length > size then .error ("too many leaves")
  else
    let level0 : List ℤ :=
      (List.range size).map fun i =>
        if i < leavesBits.length then hashLeaf (leavesBits.getD i 0) else padLeaf
    let levels := buildLevels hashMerge level0
    .ok ⟨levels.length - 1, levels⟩

/-- Go `Tree.Root()`: the single node of the top level.  (The Go code indexes
`Levels[len(Levels)-1][0]`; defaults stand in for the panics that an
ill-formed tree would cause.) -/
def Tree.root (t : Tree) : ℤ := (t.levels.getLastD []).headD 0

/-- Sibling index walked by `Tree.Path` at one level: `cur-1` when the
current node is a right child, `cur+1` otherwise. -/
def sibOf (cur : ℕ) : ℕ := if cur % 2 = 1 then cur - 1 else cur + 1

/-- The level loop of `Tree.Path`: from the current index, collect the
sibling hash and the direction bit at each of `depth` levels, halving the
index as the walk ascends. -/
def pathDirAux : ℕ → ℕ → List (List ℤ) → List ℤ × List ℕ
  | 0, _, _ => ([], [])
  | d + 1, cur, lvls =>
    let r := pathDirAux d (cur / 2) lvls.tail
    ((lvls.headD []).getD (sibOf cur) 0 :: r.1, cur % 2 :: r.2)

/-- Go `Tree.Path(idx)`: sibling hashes and direction bits for leaf `idx`
(`dir[k] = 1` iff the node at level `k` is a right child).  Fails when
`idx` is out of range of level 0. -/
def Tree.path (t : Tree) (idx : ℕ) : Except String (List ℤ × List ℕ) :=
  if idx < (t.levels.headD []).length then .ok (pathDirAux t.depth idx t.levels)
  else .error ("idx OOB")

/-- The sibling index of leaf `idx` at level `k` of the tree (bit `k` of
`idx` decides the side), as in the spec's description of the
authentication path. -/
def sibIdx (idx k : ℕ) : ℕ := sibOf (idx / 2 ^ k)

/-- Root recomputation from a leaf and an authentication path, exactly the
reduction the spec (§4.2) and the circuit's Merkle walk perform:
`curr := H_node(dir==0 ? curr : sib, dir==0 ? sib : curr)`. -/
def foldMerkle (hashMerge : ℤ → ℤ → ℤ) : ℤ → List (ℤ × ℕ) → ℤ
  | leaf, [] => leaf
  | leaf, (sib, d) :: rest =>
    foldMerkle hashMerge
      (hashMerge (if d = 0 then leaf else sib) (if d = 0 then sib else leaf)) rest

/-! ## Board (`internal/game/board.go`)

`Board` is a 10×10 grid of `uint8` cells; the embedding stores the cells as
a total function on coordinates — every Go code path reads only indices
below 10. -/

/-- Go `game.Board`. -/
structure Board where
  cells : ℕ → ℕ → ℕ

/-- Go `Board.Flatten`: row-major 100-element cell list
(`out[k] = Cells[k/10][k%10]`). -/
def Board.flatten (b : Board) : List ℕ :=
  (List.range 100).map fun k => b.cells (k / 10) (k % 10)

/-- Go `Board.Validate`: every cell must be 0 or 1 (checked first, over the
cells in row-major order) and the cell total must be exactly 17. -/
def Board.validate (b : Board) : Except String Unit :=
  if b.flatten.any (fun v => !(v == 0 || v == 1)) then
    .error ("board has non-binary cell")
  else if b.flatten.sum = 17 then .ok ()
  else .error ("board must contain exactly 17 ship cells")

/-- Total of the 10×10 grid cells (the count `Validate` accumulates). -/
def cellSum (b : Board) : ℕ :=
  ∑ r ∈ Finset.range 10, ∑ c ∈ Finset.range 10, b.cells r c

/-- Go `shipSizes` from `board.go`: standard ship lengths, total 17. -/
def shipSizes : List ℕ := [5, 4, 3, 3, 2]

/-- One placement attempt of `GenerateRandomBoard`: bounds check, overlap
check against cells already equal to 1, then mark the run of `L` cells.
`none` means the Go code jumps to `retry`. -/
def tryPlace (b : Board) (vert : Bool) (r c L : ℕ) : Option Board :=
  if vert then
    if r + L > 10 then none
    else if (List.range L).any (fun i => b.cells (r + i) c == 1) then none
    else some ⟨fun i j => if j = c ∧ r ≤ i ∧ i < r + L then 1 else b.cells i j⟩
  else
    if c + L > 10 then none
    else if (List.range L).any (fun i => b.cells r (c + i) == 1) then none
    else some ⟨fun i j => if i = r ∧ c ≤ j ∧ j < c + L then 1 else b.cells i j⟩

/-- The ship-placement loop of `GenerateRandomBoard`.  The RNG is the
injected stream `rng` of `(vert, r, c)` draws (`rand.Intn(2)==0`,
`rand.Intn(10)`, `rand.Intn(10)`), consumed one triple per attempt at
position `k`.  Go bounds the global attempt counter by
`tries > 10000 → error`; `fuel = 10001 - tries` makes that recursion
structural. -/
def genAux (rng : ℕ → Bool × Fin 10 × Fin 10) :
    ℕ → List ℕ → ℕ → Board → Except String Board
  | _, [], _, b => .ok b
  | 0, _ :: _, _, _ => .error ("failed to place ships")
  | fuel + 1, L :: rest, k, b =>
    let t := rng k
    match tryPlace b t.1 t.2.1.val t.2.2.val L with
    | none => genAux rng fuel (L :: rest) (k + 1) b
    | some b2 => genAux rng fuel rest (k + 1) b2

/-- Go `game.GenerateRandomBoard` (the implementation behind `InitBoard`):
place the standard ships on an all-zero board, drawing from `rng`. -/
def generateRandomBoard (rng : ℕ → Bool × Fin 10 × Fin 10) : Except String Board :=
  genAux rng 10001 shipSizes 0 ⟨fun _ _ => 0⟩

/-! ## ZK service layer (`internal/zk/setup.go`, `internal/app/service.go`)

`*big.Int` values are `ℤ`; the gnark/Groth16 externals (circuit compile,
key IO, witness build, prove, verify) enter as explicit result
parameters. -/

/-- Go `zk.ShotPublic`: public outputs carried beside the proof.  `Root` is a
`*big.Int`, hence `Option ℤ` (`none` = nil pointer). -/
structure ShotPublic where
  root : Option ℤ
  hit : ℕ
  row : ℕ
  col : ℕ
deriving DecidableEq

/-- Go `codec.ShotProofPayload`. -/
structure ShotProofPayload where
  proof : List ℕ
  public : ShotPublic
deriving DecidableEq

/-- Go `codec.Secret` (the newer generation with the salt): defender's board,
full tree, and `0x`-prefixed salt hex string. -/
structure Secret where
  board : Board
  tree : Tree
  saltHex : String

/-- Go `app.ShootResult`. -/
structure ShootResult where
  payload : ShotProofPayload
  bit : ℕ

/-- Go `app.CommitResult`. -/
structure CommitResult where
  rootHex : String
  secret : Secret

/-- Go `app.VerifyResult`. -/
structure VerifyResult where
  valid : Bool
  hit : ℕ
deriving DecidableEq

/-- Go `zk.ProveShot(keysDir, bit, idx, path, dir, root, salt)`.

External steps are parameters in source order: `compileRes` for
`frontend.Compile`, `pkRes` for `readPK`, `witRes` for
`frontend.NewWitness`, and `proveRes` for `groth16.Prove` plus proof
serialization (its `.ok` value is the proof byte string). -/
def proveShot (compileRes pkRes witRes : Option String)
    (proveRes : Except String (List ℕ)) (hashNode : ℤ → ℤ → ℤ)
    (bit idx : ℕ) (path : List ℤ) (dir : List ℕ) (root salt : ℤ) :
    Except String (List ℕ × ShotPublic) :=
  if path.length ≠ MerkleDepth ∨ dir.length ≠ MerkleDepth then
    .error ("bad path length")
  else
    let saltedRoot := hashNode salt root
    let pub : ShotPublic := ⟨some saltedRoot, bit, idx / 10, idx % 10⟩
    match compileRes with
    | some e => .error e
    | none =>
      match pkRes with
      | some e => .error e
      | none =>
        match witRes with
        | some e => .error e
        | none =>
          match proveRes with
          | .error e => .error e
          | .ok proofBytes => .ok (proofBytes, pub)

/-- Go `app.Shoot(sec, keysDir, row, col)`: range-check the coordinate, parse
the salt, extract the cell bit and the authentication path, and call the
prover.  `row`/`col` are Go `int`s, hence `ℤ`. -/
def shoot (compileRes pkRes witRes : Option String)
    (proveRes : Except String (List ℕ)) (hashNode : ℤ → ℤ → ℤ)
    (sec : Secret) (row col : ℤ) : Except String ShootResult :=
  if row < 0 ∨ row > 9 ∨ col < 0 ∨ col > 9 then .error ("row/col out of range")
  else if sec.saltHex = "" ∨ sec.saltHex.length < 3 ∨ sec.saltHex.take 2 ≠ "0x" then
    .error ("missing or invalid salt in secret")
  else
    match parseHexNat (sec.saltHex.drop 2) with
    | none => .error ("cannot parse salt hex")
    | some salt =>
      let treeRoot := sec.tree.root
      let idx := (row * 10 + col).toNat
      let bit := sec.board.cells (row.toNat) (col.toNat)
      match sec.tree.path idx with
      | .error e => .error e
      | .ok (path, dir) =>
        if path.length ≠ MerkleDepth ∨ dir.length ≠ MerkleDepth then
          .error ("bad path length")
        else
          match proveShot compileRes pkRes witRes proveRes hashNode
              bit idx path dir treeRoot (salt : ℤ) with
          | .error e => .error e
          | .ok (proof, pub) => .ok ⟨⟨proof, pub⟩, bit⟩

/-- Error values of the verification path.  Go distinguishes these as
distinct `error` values; `libFailure` wraps errors bubbled up from the
external steps (witness build, VK read, proof deserialization, and
`groth16.Verify`, which in Go makes `VerifyShot` return `(false, err)` —
the caller treats any non-nil error as rejection). -/
inductive VErr where
  | missingRoot
  | rootMismatch
  | invalidHit
  | libFailure (msg : String)
deriving DecidableEq

/-- Go `zk.VerifyShot(vkPath, proofBin, pub, root)`: nil-root check, the
root-mismatch binding check, then the external steps in source order
(`frontend.NewWitness` public-only build `witRes`, `readVK` `vkRes`, proof
`ReadFrom` `proofRes`, `groth16.Verify` `gRes`). -/
def verifyShot (witRes vkRes proofRes gRes : Except String Unit)
    (pub : ShotPublic) (root : ℤ) : Except VErr Bool :=
  match pub.root with
  | none => .error .missingRoot
  | some r =>
    if r ≠ root then .error .rootMismatch
    else
      match witRes with
      | .error e => .error (.libFailure e)
      | .ok () =>
        match vkRes with
        | .error e => .error (.libFailure e)
        | .ok () =>
          match proofRes with
          | .error e => .error (.libFailure e)
          | .ok () =>
            match gRes with
            | .error e => .error (.libFailure e)
            | .ok () => .ok true

/-- Go `app.VerifyWithRoot(vkPath, root, payload)`: replace a nil or zero
public root with the trusted root, run `VerifyShot` against the trusted
root, then range-check the public hit bit. -/
def verifyWithRoot (witRes vkRes proofRes gRes : Except String Unit)
    (root : ℤ) (payload : ShotProofPayload) : Except VErr VerifyResult :=
  let pubRoot : Option ℤ :=
    match payload.public.root with
    | none => some root
    | some r => if r = 0 then some root else some r
  let pub : ShotPublic := { payload.public with root := pubRoot }
  match verifyShot witRes vkRes proofRes gRes pub root with
  | .error e => .error e
  | .ok valid =>
    if pub.hit ≠ 0 ∧ pub.hit ≠ 1 then .error .invalidHit
    else .ok ⟨valid, pub.hit⟩

/-- The key files of a keys directory (`shot.vk` / `shot.pk` contents, or
`none` when the file is missing / unreadable). -/
structure KeyFiles where
  vk : Option (List ℕ)
  pk : Option (List ℕ)
deriving DecidableEq

/-- The regeneration arm of `EnsureShotKeys`: compile + `groth16.Setup`
(`setupRes`, whose `.ok` value is the fresh `(pk, vk)` byte pair), then
`writeVK` and `writePK` in that order. -/
def regenKeys (setupRes : Except String (List ℕ × List ℕ))
    (writeVKErr writePKErr : Option String) : Except String KeyFiles :=
  match setupRes with
  | .error e => .error e
  | .ok (pkBytes, vkBytes) =>
    match writeVKErr with
    | some e => .error e
    | none =>
      match writePKErr with
      | some e => .error e
      | none => .ok ⟨some vkBytes, some pkBytes⟩

/-- Go `zk.EnsureShotKeys(dir)` over the key-file state `fs`: when both key
files exist and parse (`readKeys` succeeds), reuse them unchanged;
otherwise recompile, re-run the setup and rewrite both files. -/
def ensureShotKeys (parseVK parsePK : List ℕ → Bool)
    (setupRes : Except String (List ℕ × List ℕ))
    (writeVKErr writePKErr : Option String) (fs : KeyFiles) :
    Except String KeyFiles :=
  match fs.vk, fs.pk with
  | some v, some p =>
    if parseVK v && parsePK p then .ok fs
    else regenKeys setupRes writeVKErr writePKErr
  | _, _ => regenKeys setupRes writeVKErr writePKErr

/-- Go `app.Commit(b, keysDir)`: validate, build the 128-slot tree with
`H_leaf(0)` padding, draw 32 salt bytes (`randRes` stands for
`crypto/rand.Read`), compute the salted root, ensure keys (`keysRes`), and
return the hex root together with the secret bundle. -/
def commit (hashLeaf : ℕ → ℤ) (hashMerge : ℤ → ℤ → ℤ)
    (randRes : Except String (List ℕ)) (keysRes : Except String Unit)
    (b : Board) : Except String CommitResult :=
  match b.validate with
  | .error e => .error e
  | .ok () =>
    match buildFixedTree hashLeaf hashMerge b.flatten 128 (hashLeaf 0) with
    | .error e => .error e
    | .ok t =>
      let treeRoot := t.root
      match randRes with
      | .error e => .error e
      | .ok saltBytes =>
        let salt : ℕ := natFromBytes saltBytes
        let saltedRoot := hashMerge (salt : ℤ) treeRoot
        match keysRes with
        | .error e => .error e
        | .ok () =>
          .ok ⟨"0x" ++ intToHex saltedRoot, ⟨b, t, "0x" ++ natToHex salt⟩⟩

/-! ## Native MiMC node hash (`merkle.HashNodeMiMC`)

The MiMC digest itself lives in gnark-crypto, outside this repository's
sources.  Its absorption of 32-byte blocks is modelled from the spec; the
sponge compression over the two absorbed field elements stays a parameter
`mimc2`. -/

/-- Modelled from the spec: the gnark-crypto MiMC digest (an external
dependency, not under the repository sources) absorbs each written 32-byte
block as a BN254 scalar-field element, "reduce modulo field order if
necessary; do not reject" (spec §4.3 step 3, §3 "Salt"). -/
def mimcAbsorbBlock (block : List ℕ) : ℕ := natFromBytes block % bn254

/-- Go `merkle.HashNodeMiMC(left, right)`: encode each operand with `feBytes`
(Go `Bytes()` drops the sign, hence `natAbs`), absorb both blocks, and
squeeze one element; `mimc2` is the (external) sponge on the two absorbed
elements. -/
def hashNodeMiMC (mimc2 : ℕ → ℕ → ℕ) (left right : ℤ) : ℤ :=
  (mimc2 (mimcAbsorbBlock (feBytes left.natAbs))
    (mimcAbsorbBlock (feBytes right.natAbs)) : ℤ)

/-! ## Shot circuit (`ShotCircuit.Define`, `src/unnamed/part_005`)

The circuit is embedded as the satisfaction predicate of its constraint
set over the BN254 scalar field.  The in-circuit MiMC gadget enters as the
function parameters `hL` (one absorbed element: the leaf hash) and `hN`
(two absorbed elements: the node hash). -/

/-- A full assignment of the shot circuit's variables: private witness
`(bit, path, dir, salt)` and public inputs `(root, hit, row, col)`. -/
structure ShotWitness where
  bit : F
  path : Fin MerkleDepth → F
  dir : Fin MerkleDepth → F
  salt : F
  root : F
  hit : F
  row : F
  col : F

/-- Go `api.AssertIsBoolean(v)`: the constraint `v * (1 - v) = 0`. -/
def isBoolC (v : F) : Prop := v * (1 - v) = 0

instance (v : F) : Decidable (isBoolC v) := by unfold isBoolC; infer_instance

/-- Go `api.Select(b, x, y)`: gnark's selector polynomial `y + b*(x - y)`
(equal to `x` when `b = 1`, `y` when `b = 0`). -/
def gSelect (b x y : F) : F := y + b * (x - y)

/-- The Merkle-walk loop of `Define`: starting from the leaf hash, at each
level hash `(left, right) = (Select(dir, path, curr), Select(dir, curr,
path))`. -/
def circWalk (hN : F → F → F) (start : F) (pd : List (F × F)) : F :=
  pd.foldl (fun curr pr => hN (gSelect pr.2 pr.1 curr) (gSelect pr.2 curr pr.1)) start

/-- Go `treeRoot` as recomputed inside the circuit from the private witness:
the Merkle walk applied to `H_leaf_circuit(bit)` along `(path, dir)`. -/
def shotTreeRoot (hL : F → F) (hN : F → F → F) (w : ShotWitness) : F :=
  circWalk hN (hL w.bit) ((List.finRange MerkleDepth).map fun i => (w.path i, w.dir i))

/-- The constraints emitted by `bits.ToBinary(api, idx,
bits.WithNbDigits(7))` followed by the circuit's per-bit assertions: fresh
bit variables `idxBits`, each boolean, recomposing to `idx = row*10 + col`,
with `Dir[i] = idxBits[i]` asserted for every `i`. -/
def coordBindingSat (w : ShotWitness) : Prop :=
  ∃ idxBits : Fin MerkleDepth → F,
    (∀ i, isBoolC (idxBits i)) ∧
    (∑ i : Fin MerkleDepth, idxBits i * (2 : F) ^ (i : ℕ)) = w.row * 10 + w.col ∧
    (∀ i, w.dir i = idxBits i)

/-- Satisfaction of the complete constraint system of
`ShotCircuit.Define`: booleanity of `Bit` and `Hit`, the reveal equation
`Hit = Bit`, the salt-binding equation on the recomputed tree root, and
the coordinate binding. -/
def shotCircuitSat (hL : F → F) (hN : F → F → F) (w : ShotWitness) : Prop :=
  isBoolC w.bit ∧ isBoolC w.hit ∧ w.hit = w.bit ∧
  hN w.salt (shotTreeRoot hL hN w) = w.root ∧
  coordBindingSat w

/-! ## Concrete instances used by the witness theorems

The hash parameters are instantiated with cheap injective-looking
polynomials; the claim theorems themselves are quantified over every hash
function. -/

/-- Gadget leaf hash for the C1 witness instance. -/
def c1HL : F → F := fun x => x + 5

/-- Gadget node hash for the C1 witness instance. -/
def c1HN : F → F → F := fun a b => a + 2 * b + 7

/-- An all-left witness whose public root is set to the unsalted tree
root. -/
def c1W : ShotWitness :=
  ⟨0, fun _ => 0, fun _ => 0, 2, 54, 0, 0, 0⟩

/-- Gadget leaf hash for the C2 witness instance. -/
def c2HL : F → F := fun x => 2 * x + 1

/-- Gadget node hash for the C2 witness instance. -/
def c2HN : F → F → F := fun a b => a + 3 * b + 1

/-- A satisfying witness for leaf index 1, i.e. `(row, col) = (0, 1)`. -/
def c2W : ShotWitness :=
  ⟨1, fun _ => 0, fun i => if i = 0 then 1 else 0, 3, 52, 1, 0, 1⟩

/-- Native leaf hash stand-in for tree-building witness instances. -/
def wHL : ℕ → ℤ := fun n => (n : ℤ) + 2

/-- Native node hash stand-in for tree-building witness instances. -/
def wHM : ℤ → ℤ → ℤ := fun a b => 2 * a + b + 1

/-- A concrete 128-slot tree over three leaf bits, for the C3 witness. -/
def c3Tree : Tree :=
  match buildFixedTree wHL wHM [1, 0, 1] 128 5 with
  | .ok t => t
  | .error _ => ⟨0, []⟩

/-- A payload with a present, nonzero public root, for the C4 witness. -/
def c4Payload : ShotProofPayload := ⟨[1, 2], ⟨some 5, 1, 0, 0⟩⟩

/-- A board with a non-binary cell, for the C7 witness. -/
def c7Bad : Board := ⟨fun _ _ => 2⟩

/-- A key-file state where both files are present and parse, for the C9
witness. -/
def c9FS : KeyFiles := ⟨some [1], some [2]⟩

/-- Sponge stand-in for the C5 witness instance. -/
def c5M2 : ℕ → ℕ → ℕ := fun a b => a + 2 * b + 3

/-- A 32-byte salt sample of all `0xff` bytes — its 256-bit value exceeds
the BN254 scalar field order. -/
def c5Bytes : List ℕ := List.replicate 32 255

/-- A valid board (9 + 8 = 17 ship cells), for the C5 witness. -/
def c5Board : Board :=
  ⟨fun i j => if (i = 0 ∧ j < 9) ∨ (i = 1 ∧ j < 8) then 1 else 0⟩

/-- The tree the C5 witness `Commit` run builds. -/
def c5Tree : Tree :=
  match buildFixedTree wHL (hashNodeMiMC c5M2) c5Board.flatten 128 (wHL 0) with
  | .ok t => t
  | .error _ => ⟨0, []⟩

/-- A board with a single ship cell at `(0, 1)`, for the C6 witness. -/
def c6Board : Board := ⟨fun i j => if i = 0 ∧ j = 1 then 1 else 0⟩

/-- The committed tree of the C6 witness secret. -/
def c6Tree : Tree :=
  match buildFixedTree wHL wHM c6Board.flatten 128 (wHL 0) with
  | .ok t => t
  | .error _ => ⟨0, []⟩

/-- The C6 witness secret bundle, with salt `0x0a` (= 10). -/
def c6Secret : Secret := ⟨c6Board, c6Tree, "0x0a"⟩

/-- The result of the C6 witness `Shoot` run. -/
def c6Res : ShootResult :=
  match shoot none none none (.ok [9]) wHM c6Secret 0 1 with
  | .ok r => r
  | .error _ => ⟨⟨[], ⟨none, 0, 0, 0⟩⟩, 0⟩

/-- A deterministic draw stream for the C10 witness: always horizontal,
row `k` for the `k`-th attempt, column 0. -/
def c10Rng : ℕ → Bool × Fin 10 × Fin 10 :=
  fun k => (false, ⟨k % 10, Nat.mod_lt _ (by norm_num)⟩, ⟨0, by norm_num⟩)

/-- The board produced by the C10 witness run. -/
def c10Board : Board :=
  match generateRandomBoard c10Rng with
  | .ok b => b
  | .error _ => ⟨fun _ _ => 3⟩

/-- Eliminating the fresh `ToBinary` bits through the asserted equalities
`Dir[i] = idxBits[i]` leaves constraints on `Dir` itself. -/
theorem coordBindingSat_iff (w : ShotWitness) :
    coordBindingSat w ↔
      (∀ i, isBoolC (w.dir i)) ∧
      (∑ i : Fin MerkleDepth, w.dir i * (2 : F) ^ (i : ℕ)) = w.row * 10 + w.col := by
  constructor
  · rintro ⟨bits, hb, hsum, heq⟩
    constructor
    · intro i; rw [heq i]; exact hb i
    · rw [← hsum]; exact Finset.sum_congr rfl fun i _ => by rw [heq i]
  · rintro ⟨hb, hsum⟩
    exact ⟨fun i => w.dir i, hb, hsum, fun i => rfl⟩

/-! ## Claim C1 — salt binding in the shot circuit -/

/-- C1: the shot circuit's constraint system asserts
`H_node_circuit(salt, treeRoot_circuit) = root` on the tree root recomputed
from the private `(bit, path, dir)` witness; consequently a witness whose
public `root` equals the unsalted recomputed tree root fails the circuit
whenever salting actually changes the root. -/
theorem C1_salt_binding (hL : F → F) (hN : F → F → F) (w : ShotWitness) :
    (shotCircuitSat hL hN w → hN w.salt (shotTreeRoot hL hN w) = w.root) ∧
    (w.root = shotTreeRoot hL hN w →
      hN w.salt (shotTreeRoot hL hN w) ≠ shotTreeRoot hL hN w →
      ¬shotCircuitSat hL hN w) := by
  refine ⟨fun h => h.2.2.2.1, fun hroot hne hsat => ?_⟩
  exact hne (by rw [hsat.2.2.2.1, hroot])

theorem C1_salt_binding_witness :
    c1W.root = shotTreeRoot c1HL c1HN c1W ∧
    c1HN c1W.salt (shotTreeRoot c1HL c1HN c1W) ≠ shotTreeRoot c1HL c1HN c1W ∧
    ¬shotCircuitSat c1HL c1HN c1W := by
  have h1 : c1W.root = shotTreeRoot c1HL c1HN c1W := by decide
  have h2 : c1HN c1W.salt (shotTreeRoot c1HL c1HN c1W) ≠ shotTreeRoot c1HL c1HN c1W := by
    decide
  exact ⟨h1, h2, (C1_salt_binding c1HL c1HN c1W).2 h1 h2⟩

/-! ## Claim C2 — coordinate binding in the shot circuit -/

/-- C2: any satisfying witness has boolean direction bits recomposing (LSB
first, 7 bits) to `row*10 + col`; hence two satisfying witnesses sharing
the same direction bits (the same Merkle leaf index) must publicly claim
the same in-range `(row, col)`. -/
theorem C2_coordinate_binding (hL : F → F) (hN : F → F → F) (w : ShotWitness)
    (hsat : shotCircuitSat hL hN w) :
    ((∀ i, isBoolC (w.dir i)) ∧
      (∑ i : Fin MerkleDepth, w.dir i * (2 : F) ^ (i : ℕ)) = w.row * 10 + w.col) ∧
    (∀ (hL2 : F → F) (hN2 : F → F → F) (w2 : ShotWitness) (r c r2 c2 : ℕ),
      shotCircuitSat hL2 hN2 w2 → w2.dir = w.dir →
      w.row = (r : F) → w.col = (c : F) → w2.row = (r2 : F) → w2.col = (c2 : F) →
      r < 10 → c < 10 → r2 < 10 → c2 < 10 → r = r2 ∧ c = c2) := by
  have h1 := (coordBindingSat_iff w).1 hsat.2.2.2.2
  refine ⟨h1, ?_⟩
  intro hL2 hN2 w2 r c r2 c2 hsat2 hdir hr hc hr2 hc2 hrlt hclt hr2lt hc2lt
  have h2 := (coordBindingSat_iff w2).1 hsat2.2.2.2.2
  have hsums : w.row * 10 + w.col = w2.row * 10 + w2.col := by
    rw [← h1.2, ← h2.2]
    exact Finset.sum_congr rfl fun i _ => by rw [hdir]
  rw [hr, hc, hr2, hc2] at hsums
  have hcast : ((r * 10 + c : ℕ) : F) = ((r2 * 10 + c2 : ℕ) : F) := by
    push_cast
    exact hsums
  have h100 : (100 : ℕ) < bn254 := by norm_num [bn254]
  have hval := congrArg ZMod.val hcast
  rw [ZMod.val_cast_of_lt (by omega), ZMod.val_cast_of_lt (by omega)] at hval
  omega

theorem C2_coordinate_binding_witness :
    (∀ i, isBoolC (c2W.dir i)) ∧
      (∑ i : Fin MerkleDepth, c2W.dir i * (2 : F) ^ (i : ℕ)) = c2W.row * 10 + c2W.col :=
  (C2_coordinate_binding c2HL c2HN c2W
    ⟨by decide, by decide, by decide, by decide,
      (coordBindingSat_iff c2W).2 ⟨by decide, by decide⟩⟩).1

/-! ## Claim C4 — root-mismatch rejection in VerifyWithRoot -/

/-- C4: after replacing a missing or zero public root by the trusted root,
`VerifyWithRoot` fails with the root-mismatch error exactly when the
(possibly replaced) public root differs from the trusted root; in that
case the outcome is independent of the cryptographic verifier (quantified
over every `gRes`), and being an error it is never reported valid. -/
theorem C4_root_mismatch (witRes vkRes proofRes gRes : Except String Unit)
    (root : ℤ) (payload : ShotProofPayload) :
    (verifyWithRoot witRes vkRes proofRes gRes root payload =
        .error .rootMismatch ↔
      ∃ r, payload.public.root = some r ∧ r ≠ 0 ∧ r ≠ root) ∧
    ((∃ r, payload.public.root = some r ∧ r ≠ 0 ∧ r ≠ root) →
      ∀ gRes2 : Except String Unit,
        verifyWithRoot witRes vkRes proofRes gRes2 root payload =
          .error .rootMismatch) := by
  obtain ⟨pf, pub⟩ := payload
  obtain ⟨ro, hit, row, col⟩ := pub
  have key : ∀ g : Except String Unit,
      verifyWithRoot witRes vkRes proofRes g root ⟨pf, ro, hit, row, col⟩ =
          .error .rootMismatch ↔
        ∃ r, ro = some r ∧ r ≠ 0 ∧ r ≠ root := by
    intro g
    cases ro with
    | none =>
      simp only [verifyWithRoot, verifyShot, if_neg (by simp : ¬root ≠ root)]
      rcases witRes with e | ⟨⟩ <;> rcases vkRes with e2 | ⟨⟩ <;>
        rcases proofRes with e3 | ⟨⟩ <;> rcases g with e4 | ⟨⟩ <;>
        split_ifs <;> simp
    | some r =>
      by_cases hr0 : r = 0
      · subst hr0
        simp only [verifyWithRoot, verifyShot, if_pos rfl,
          if_neg (by simp : ¬root ≠ root)]
        rcases witRes with e | ⟨⟩ <;> rcases vkRes with e2 | ⟨⟩ <;>
          rcases proofRes with e3 | ⟨⟩ <;> rcases g with e4 | ⟨⟩ <;>
          split_ifs <;> simp
      · by_cases hrr : r = root
        · subst hrr
          simp only [verifyWithRoot, verifyShot, if_neg hr0,
            if_neg (by simp : ¬r ≠ r)]
          rcases witRes with e | ⟨⟩ <;> rcases vkRes with e2 | ⟨⟩ <;>
            rcases proofRes with e3 | ⟨⟩ <;> rcases g with e4 | ⟨⟩ <;>
            split_ifs <;> simp [hr0]
        · simp only [verifyWithRoot, verifyShot, if_neg hr0, if_pos hrr]
          simp [hr0, hrr]
  exact ⟨key gRes, fun hm g => (key g).2 hm⟩

theorem C4_root_mismatch_witness :
    verifyWithRoot (.ok ()) (.ok ()) (.ok ()) (.ok ()) 7 c4Payload =
      .error .rootMismatch :=
  (C4_root_mismatch (.ok ()) (.ok ()) (.ok ()) (.ok ()) 7 c4Payload).2
    ⟨5, rfl, by decide, by decide⟩ (.ok ())

/-! ## Claim C9 — EnsureShotKeys key reuse -/

/-- C9: when both key files exist and parse, `EnsureShotKeys` succeeds
returning the file state unchanged, for every possible compile/setup/write
outcome (so neither setup nor a rewrite can have been run); in every other
file state it takes the regeneration arm, which on success rewrites both
files with the fresh setup outputs. -/
theorem C9_ensure_keys_idempotent (parseVK parsePK : List ℕ → Bool)
    (setupRes : Except String (List ℕ × List ℕ))
    (writeVKErr writePKErr : Option String) (fs : KeyFiles) :
    ((∃ v p, fs.vk = some v ∧ fs.pk = some p ∧
        parseVK v = true ∧ parsePK p = true) →
      ensureShotKeys parseVK parsePK setupRes writeVKErr writePKErr fs = .ok fs) ∧
    ((¬∃ v p, fs.vk = some v ∧ fs.pk = some p ∧
        parseVK v = true ∧ parsePK p = true) →
      ensureShotKeys parseVK parsePK setupRes writeVKErr writePKErr fs =
        regenKeys setupRes writeVKErr writePKErr) ∧
    (∀ pkBytes vkBytes, setupRes = .ok (pkBytes, vkBytes) →
      writeVKErr = none → writePKErr = none →
      regenKeys setupRes writeVKErr writePKErr = .ok ⟨some vkBytes, some pkBytes⟩) := by
  obtain ⟨vk?, pk?⟩ := fs
  refine ⟨?_, ?_, ?_⟩
  · rintro ⟨v, p, hv, hp, hpv, hpp⟩
    simp only at hv hp
    subst hv; subst hp
    simp [ensureShotKeys, hpv, hpp]
  · intro hbad
    cases vk? with
    | none => rfl
    | some v =>
      cases pk? with
      | none => rfl
      | some p =>
        have : ¬(parseVK v = true ∧ parsePK p = true) := by
          intro ⟨h1, h2⟩; exact hbad ⟨v, p, rfl, rfl, h1, h2⟩
        simp only [ensureShotKeys]
        rw [if_neg (by simpa [Bool.and_eq_true] using this)]
  · rintro pkBytes vkBytes rfl rfl rfl
    rfl

theorem C9_ensure_keys_idempotent_witness :
    ensureShotKeys (fun _ => true) (fun _ => true) (.ok ([3], [4])) none none c9FS =
      .ok c9FS :=
  (C9_ensure_keys_idempotent (fun _ => true) (fun _ => true) (.ok ([3], [4]))
    none none c9FS).1 ⟨[1], [2], rfl, rfl, rfl, rfl⟩

/-! ## Merkle tree lemmas -/

theorem mergeLevel_length (hashMerge : ℤ → ℤ → ℤ) :
    ∀ l : List ℤ, (mergeLevel hashMerge l).length = l.length / 2
  | [] => by simp [mergeLevel]
  | [a] => by simp [mergeLevel]
  | a :: b :: rest => by
    have ih := mergeLevel_length hashMerge rest
    simp only [mergeLevel, List.length_cons, ih]
    omega

theorem mergeLevel_getD (hashMerge : ℤ → ℤ → ℤ) :
    ∀ (l : List ℤ) (i : ℕ), 2 * i + 1 < l.length →
      (mergeLevel hashMerge l).getD i 0 =
        hashMerge (l.getD (2 * i) 0) (l.getD (2 * i + 1) 0)
  | [], i, hi => by simp at hi
  | [a], i, hi => by simp at hi
  | a :: b :: rest, 0, _ => by simp [mergeLevel]
  | a :: b :: rest, j + 1, hi => by
    have hj : 2 * j + 1 < rest.length := by
      simp only [List.length_cons] at hi
      omega
    have ih := mergeLevel_getD hashMerge rest j hj
    have h2 : 2 * (j + 1) = 2 * j + 1 + 1 := by omega
    have h3 : 2 * (j + 1) + 1 = 2 * j + 1 + 1 + 1 := by omega
    simp only [mergeLevel, List.getD_cons_succ, h2, h3]
    exact ih

theorem buildLevelsAux_of_short (hashMerge : ℤ → ℤ → ℤ) (fuel : ℕ)
    (cur : List ℤ) (h : cur.length ≤ 1) :
    buildLevelsAux hashMerge fuel cur = [cur] := by
  cases fuel with
  | zero => rfl
  | succ f => simp [buildLevelsAux, h]

theorem buildLevelsAux_of_long (hashMerge : ℤ → ℤ → ℤ) (fuel : ℕ)
    (cur : List ℤ) (h : ¬cur.length ≤ 1) :
    buildLevelsAux hashMerge (fuel + 1) cur =
      cur :: buildLevelsAux hashMerge fuel (mergeLevel hashMerge cur) := by
  simp [buildLevelsAux, h]

theorem buildLevelsAux_ne_nil (hashMerge : ℤ → ℤ → ℤ) (fuel : ℕ)
    (cur : List ℤ) : buildLevelsAux hashMerge fuel cur ≠ [] := by
  cases fuel with
  | zero => simp [buildLevelsAux]
  | succ f =>
    by_cases h : cur.length ≤ 1
    · simp [buildLevelsAux, h]
    · simp [buildLevelsAux, h]

theorem buildLevelsAux_headD (hashMerge : ℤ → ℤ → ℤ) (fuel : ℕ)
    (cur : List ℤ) : (buildLevelsAux hashMerge fuel cur).headD [] = cur := by
  cases fuel with
  | zero => rfl
  | succ f =>
    by_cases h : cur.length ≤ 1
    · simp [buildLevelsAux, h]
    · simp [buildLevelsAux, h]

theorem buildLevelsAux_length (hashMerge : ℤ → ℤ → ℤ) :
    ∀ (d fuel : ℕ) (cur : List ℤ), cur.length = 2 ^ d → d ≤ fuel →
      (buildLevelsAux hashMerge fuel cur).length = d + 1 := by
  intro d
  induction d with
  | zero =>
    intro fuel cur hlen _
    rw [buildLevelsAux_of_short hashMerge fuel cur (by omega)]
    rfl
  | succ d ih =>
    intro fuel cur hlen hfuel
    obtain ⟨f, rfl⟩ : ∃ f, fuel = f + 1 := ⟨fuel - 1, by omega⟩
    have h2 : (2 : ℕ) ^ (d + 1) = 2 * 2 ^ d := by ring
    have hpos : (1 : ℕ) ≤ 2 ^ d := Nat.one_le_two_pow
    rw [buildLevelsAux_of_long hashMerge f cur (by omega)]
    have hnext : (mergeLevel hashMerge cur).length = 2 ^ d := by
      rw [mergeLevel_length]; omega
    simp [ih f (mergeLevel hashMerge cur) hnext (by omega)]

theorem getLastD_of_ne_nil {α : Type} (l : List α) (h : l ≠ []) (d1 d2 : α) :
    l.getLastD d1 = l.getLastD d2 := by
  cases l with
  | nil => exact absurd rfl h
  | cons a rest => rw [List.getLastD_cons, List.getLastD_cons]

theorem headD_eq_getD_zero (l : List ℤ) : l.headD 0 = l.getD 0 0 := by
  cases l <;> rfl

theorem pathDirAux_lengths :
    ∀ (d idx : ℕ) (lvls : List (List ℤ)),
      (pathDirAux d idx lvls).1.length = d ∧ (pathDirAux d idx lvls).2.length = d := by
  intro d
  induction d with
  | zero => intro idx lvls; exact ⟨rfl, rfl⟩
  | succ d ih =>
    intro idx lvls
    have := ih (idx / 2) lvls.tail
    simp [pathDirAux, this.1, this.2]

theorem pathDirAux_snd_getD :
    ∀ (d idx : ℕ) (lvls : List (List ℤ)) (k : ℕ), k < d →
      ((pathDirAux d idx lvls).2).getD k 2 = idx / 2 ^ k % 2 := by
  intro d
  induction d with
  | zero => intro idx lvls k hk; omega
  | succ d ih =>
    intro idx lvls k hk
    cases k with
    | zero => simp [pathDirAux]
    | succ k =>
      have := ih (idx / 2) lvls.tail k (by omega)
      simp only [pathDirAux, List.getD_cons_succ]
      rw [this, Nat.div_div_eq_div_mul, ← pow_succ']

theorem pathDirAux_fst_getD :
    ∀ (d idx : ℕ) (lvls : List (List ℤ)) (k : ℕ), k < d →
      ((pathDirAux d idx lvls).1).getD k 0 =
        (lvls.getD k []).getD (sibIdx idx k) 0 := by
  intro d
  induction d with
  | zero => intro idx lvls k hk; omega
  | succ d ih =>
    intro idx lvls k hk
    cases k with
    | zero => cases lvls <;> simp [pathDirAux, sibIdx]
    | succ k =>
      have htail : lvls.tail.getD k [] = lvls.getD (k + 1) [] := by
        cases lvls <;> rfl
      have hsib : sibIdx (idx / 2) k = sibIdx idx (k + 1) := by
        simp only [sibIdx, Nat.div_div_eq_div_mul, ← pow_succ']
      have := ih (idx / 2) lvls.tail k (by omega)
      simp only [pathDirAux, List.getD_cons_succ]
      rw [this, htail, hsib]

/-- The heart of the Merkle round-trip: recomputing along the collected
path folds level by level to the root of the built level stack. -/
theorem buildLevelsAux_fold (hashMerge : ℤ → ℤ → ℤ) :
    ∀ (d fuel : ℕ) (cur : List ℤ), cur.length = 2 ^ d → d ≤ fuel →
      ∀ idx, idx < 2 ^ d →
        foldMerkle hashMerge (cur.getD idx 0)
          ((pathDirAux d idx (buildLevelsAux hashMerge fuel cur)).1.zip
            (pathDirAux d idx (buildLevelsAux hashMerge fuel cur)).2) =
        ((buildLevelsAux hashMerge fuel cur).getLastD []).headD 0 := by
  intro d
  induction d with
  | zero =>
    intro fuel cur hlen _ idx hidx
    rw [buildLevelsAux_of_short hashMerge fuel cur (by omega)]
    have hidx0 : idx = 0 := by omega
    subst hidx0
    cases cur <;> simp [pathDirAux, foldMerkle, List.getLastD]
  | succ d ih =>
    intro fuel cur hlen hfuel idx hidx
    obtain ⟨f, rfl⟩ : ∃ f, fuel = f + 1 := ⟨fuel - 1, by omega⟩
    have h2 : (2 : ℕ) ^ (d + 1) = 2 * 2 ^ d := by ring
    have hpos : (1 : ℕ) ≤ 2 ^ d := Nat.one_le_two_pow
    have hlong : ¬cur.length ≤ 1 := by omega
    rw [buildLevelsAux_of_long hashMerge f cur hlong]
    have hnextlen : (mergeLevel hashMerge cur).length = 2 ^ d := by
      rw [mergeLevel_length]; omega
    set next := mergeLevel hashMerge cur with hnext
    set rest := buildLevelsAux hashMerge f next with hrest
    have hstep :
        hashMerge (if idx % 2 = 0 then cur.getD idx 0 else cur.getD (sibOf idx) 0)
          (if idx % 2 = 0 then cur.getD (sibOf idx) 0 else cur.getD idx 0) =
        next.getD (idx / 2) 0 := by
      rcases Nat.even_or_odd idx with he | ho
      · have hpar : idx % 2 = 0 := Nat.even_iff.mp he
        have hsib : sibOf idx = idx + 1 := by simp [sibOf, hpar]
        have hlt : 2 * (idx / 2) + 1 < cur.length := by omega
        rw [hnext, mergeLevel_getD hashMerge cur (idx / 2) hlt]
        have he2 : 2 * (idx / 2) + 1 = idx + 1 := by omega
        have he1 : 2 * (idx / 2) = idx := by omega
        rw [he2, he1]
        simp [hpar, hsib]
      · have hpar : idx % 2 = 1 := Nat.odd_iff.mp ho
        have hsib : sibOf idx = idx - 1 := by simp [sibOf, hpar]
        have hlt : 2 * (idx / 2) + 1 < cur.length := by omega
        rw [hnext, mergeLevel_getD hashMerge cur (idx / 2) hlt]
        have he2 : 2 * (idx / 2) + 1 = idx := by omega
        have he1 : 2 * (idx / 2) = idx - 1 := by omega
        rw [he2, he1]
        simp [hpar, hsib]
    have hIH := ih f next hnextlen (by omega) (idx / 2) (by omega)
    rw [← hrest] at hIH
    have hne : rest ≠ [] := buildLevelsAux_ne_nil hashMerge f next
    calc
      foldMerkle hashMerge (cur.getD idx 0)
          ((pathDirAux (d + 1) idx (cur :: rest)).1.zip
            (pathDirAux (d + 1) idx (cur :: rest)).2)
        = foldMerkle hashMerge (next.getD (idx / 2) 0)
            ((pathDirAux d (idx / 2) rest).1.zip (pathDirAux d (idx / 2) rest).2) := by
          simp only [pathDirAux, List.headD_cons, List.tail_cons, List.zip_cons_cons,
            foldMerkle]
          rw [← hstep]
          rcases Nat.even_or_odd idx with he | ho
          · have hpar : idx % 2 = 0 := Nat.even_iff.mp he
            simp [hpar, List.zip]
          · have hpar : idx % 2 = 1 := Nat.odd_iff.mp ho
            simp [hpar, List.zip]
      _ = (rest.getLastD []).headD 0 := hIH
      _ = ((cur :: rest).getLastD []).headD 0 := by
          rw [List.getLastD_cons, getLastD_of_ne_nil rest hne cur []]

/-! ## Claim C3 — Merkle round-trip -/

/-- C3: for every tree built by `BuildFixedTree` over 128 slots and every
`idx < 128`, `Path(idx)` succeeds with 7 siblings and 7 direction bits,
`dir[k]` is bit `k` of `idx` (LSB first), `path[k]` is the sibling at
level `k`, and folding the node hash from `Levels[0][idx]` along the path
reproduces exactly the tree root. -/
theorem C3_merkle_roundtrip (hashLeaf : ℕ → ℤ) (hashMerge : ℤ → ℤ → ℤ)
    (bits : List ℕ) (pad : ℤ) (t : Tree)
    (hb : buildFixedTree hashLeaf hashMerge bits 128 pad = .ok t)
    (idx : ℕ) (hidx : idx < 128) :
    t.path idx = .ok (pathDirAux t.depth idx t.levels) ∧
    (pathDirAux t.depth idx t.levels).1.length = MerkleDepth ∧
    (pathDirAux t.depth idx t.levels).2.length = MerkleDepth ∧
    (∀ k, k < MerkleDepth →
      ((pathDirAux t.depth idx t.levels).2).getD k 2 = idx / 2 ^ k % 2) ∧
    (∀ k, k < MerkleDepth →
      ((pathDirAux t.depth idx t.levels).1).getD k 0 =
        (t.levels.getD k []).getD (sibIdx idx k) 0) ∧
    foldMerkle hashMerge ((t.levels.headD []).getD idx 0)
      ((pathDirAux t.depth idx t.levels).1.zip
        (pathDirAux t.depth idx t.levels).2) = t.root := by
  have hguard : ((128 : ℕ) &&& (128 - 1) ≠ 0) = False := by decide
  rw [buildFixedTree] at hb
  rw [if_neg (by decide)] at hb
  by_cases hlen : bits.length > 128
  · rw [if_pos hlen] at hb; exact absurd hb (by simp)
  · rw [if_neg hlen] at hb
    simp only [Except.ok.injEq] at hb
    set level0 : List ℤ := (List.range 128).map fun i =>
      if i < bits.length then hashLeaf (bits.getD i 0) else pad with hl0
    have hl0len : level0.length = 128 := by simp [hl0]
    have hpow : level0.length = 2 ^ 7 := by omega
    have hfuel : (7 : ℕ) ≤ level0.length := by omega
    have hlevels : (buildLevels hashMerge level0).length = 8 :=
      buildLevelsAux_length hashMerge 7 level0.length level0 hpow (by omega)
    have hdepth : t.depth = 7 := by rw [← hb]; simp [hlevels]
    have hlv : t.levels = buildLevels hashMerge level0 := by rw [← hb]
    have hhead : (t.levels.headD []) = level0 := by
      rw [hlv]; exact buildLevelsAux_headD hashMerge level0.length level0
    refine ⟨?_, ?_, ?_, ?_, ?_, ?_⟩
    · rw [Tree.path, if_pos (by rw [hhead]; omega)]
    · exact (pathDirAux_lengths t.depth idx t.levels).1.trans hdepth
    · exact (pathDirAux_lengths t.depth idx t.levels).2.trans hdepth
    · intro k hk
      exact pathDirAux_snd_getD t.depth idx t.levels k (by rw [hdepth]; exact hk)
    · intro k hk
      exact pathDirAux_fst_getD t.depth idx t.levels k (by rw [hdepth]; exact hk)
    · rw [hhead, hdepth, hlv, Tree.root, hlv]
      exact buildLevelsAux_fold hashMerge 7 level0.length level0 hpow hfuel idx
        (by omega)

theorem C3_merkle_roundtrip_witness :
    foldMerkle wHM ((c3Tree.levels.headD []).getD 5 0)
      ((pathDirAux c3Tree.depth 5 c3Tree.levels).1.zip
        (pathDirAux c3Tree.depth 5 c3Tree.levels).2) = c3Tree.root ∧
    c3Tree.path 5 = .ok (pathDirAux c3Tree.depth 5 c3Tree.levels) :=
  have h := C3_merkle_roundtrip wHL wHM [1, 0, 1] 5 c3Tree rfl 5 (by decide)
  ⟨h.2.2.2.2.2, h.1⟩

/-! ## Claim C8 — BuildFixedTree error behaviour (corrected at size 0) -/

theorem land_eq_zero_iff (x y : ℕ) :
    x &&& y = 0 ↔ ∀ i, ¬(x.testBit i = true ∧ y.testBit i = true) := by
  constructor
  · rintro h i ⟨hx, hy⟩
    have hb := Nat.testBit_land x y i
    rw [h, Nat.zero_testBit, hx, hy] at hb
    simp at hb
  · intro h
    apply Nat.eq_of_testBit_eq
    intro i
    rw [Nat.testBit_land, Nat.zero_testBit]
    cases hx : x.testBit i with
    | false => simp
    | true =>
      cases hy : y.testBit i with
      | false => simp
      | true => exact absurd ⟨hx, hy⟩ (h i)

/-- The Go guard `size&(size-1) == 0` holds exactly for zero and the
powers of two. -/
theorem land_pred_eq_zero_iff (n : ℕ) :
    n &&& (n - 1) = 0 ↔ n = 0 ∨ ∃ k, n = 2 ^ k := by
  induction n using Nat.strong_induction_on with
  | _ n ih =>
    constructor
    · intro h
      rcases Nat.eq_zero_or_pos n with h0 | hpos
      · exact Or.inl h0
      rcases Nat.even_or_odd n with he | ho
      · have hpar : n % 2 = 0 := Nat.even_iff.mp he
        have hbits := (land_eq_zero_iff n (n - 1)).mp h
        have hrec : n / 2 &&& (n / 2 - 1) = 0 := by
          apply (land_eq_zero_iff _ _).mpr
          rintro i ⟨hx, hy⟩
          apply hbits (i + 1)
          refine ⟨by rw [Nat.testBit_succ]; exact hx, ?_⟩
          rw [Nat.testBit_succ]
          have hdiv : (n - 1) / 2 = n / 2 - 1 := by omega
          rw [hdiv]; exact hy
        rcases (ih (n / 2) (by omega)).mp hrec with h0 | ⟨k, hk⟩
        · omega
        · refine Or.inr ⟨k + 1, ?_⟩
          calc n = 2 * (n / 2) := by omega
            _ = 2 * 2 ^ k := by rw [hk]
            _ = 2 ^ (k + 1) := (pow_succ' 2 k).symm
      · have hpar : n % 2 = 1 := Nat.odd_iff.mp ho
        by_cases h1 : n = 1
        · exact Or.inr ⟨0, by omega⟩
        have hbits := (land_eq_zero_iff n (n - 1)).mp h
        have hzero : n / 2 = 0 := by
          apply Nat.eq_of_testBit_eq
          intro i
          rw [Nat.zero_testBit]
          cases hx : (n / 2).testBit i with
          | false => rfl
          | true =>
            exfalso
            apply hbits (i + 1)
            refine ⟨by rw [Nat.testBit_succ]; exact hx, ?_⟩
            rw [Nat.testBit_succ]
            have hdiv : (n - 1) / 2 = n / 2 := by omega
            rw [hdiv]; exact hx
        omega
    · rintro (h0 | ⟨k, hk⟩)
      · subst h0; rfl
      subst hk
      apply (land_eq_zero_iff _ _).mpr
      rintro i ⟨hx, hy⟩
      rw [Nat.testBit_two_pow] at hx
      rw [Nat.testBit_two_pow_sub_one] at hy
      simp at hx hy
      omega

/-- C8 (amended): `BuildFixedTree` errors iff `size` is nonzero and not a
power of two, or the input is longer than `size` — the Go bitmask guard
`size&(size-1) != 0` lets `size = 0` through even though 0 is not a power
of two.  On success, level 0 has exactly `size` entries: hashed leaves
below the input length, the padding leaf at and beyond it. -/
theorem C8_build_error_iff (hashLeaf : ℕ → ℤ) (hashMerge : ℤ → ℤ → ℤ)
    (leavesBits : List ℕ) (size : ℕ) (padLeaf : ℤ) :
    ((∃ e, buildFixedTree hashLeaf hashMerge leavesBits size padLeaf = .error e) ↔
      (size ≠ 0 ∧ ¬∃ k, size = 2 ^ k) ∨ leavesBits.length > size) ∧
    (∀ t, buildFixedTree hashLeaf hashMerge leavesBits size padLeaf = .ok t →
      (t.levels.headD []).length = size ∧
      ∀ i, i < size → (t.levels.headD []).getD i 0 =
        if i < leavesBits.length then hashLeaf (leavesBits.getD i 0) else padLeaf) := by
  constructor
  · by_cases hmask : size &&& (size - 1) ≠ 0
    · have hnp : ¬(size = 0 ∨ ∃ k, size = 2 ^ k) := by
        rw [← land_pred_eq_zero_iff]; exact hmask
      push_neg at hnp
      simp [buildFixedTree, hmask, hnp]
    · have hp : size = 0 ∨ ∃ k, size = 2 ^ k := (land_pred_eq_zero_iff size).mp
        (by omega)
      by_cases hlen : leavesBits.length > size
      · simp only [buildFixedTree, if_neg hmask, if_pos hlen]
        constructor
        · intro; exact Or.inr hlen
        · intro; exact ⟨_, rfl⟩
      · simp only [buildFixedTree, if_neg hmask, if_neg hlen]
        constructor
        · rintro ⟨e, he⟩; exact absurd he (by simp)
        · rintro (⟨hne, hnp⟩ | hgt)
          · rcases hp with h0 | hpow
            · exact absurd h0 hne
            · exact absurd hpow hnp
          · exact absurd hgt hlen
  · intro t ht
    rw [buildFixedTree] at ht
    by_cases hmask : size &&& (size - 1) ≠ 0
    · rw [if_pos hmask] at ht; exact absurd ht (by simp)
    rw [if_neg hmask] at ht
    by_cases hlen : leavesBits.length > size
    · rw [if_pos hlen] at ht; exact absurd ht (by simp)
    rw [if_neg hlen] at ht
    simp only [Except.ok.injEq] at ht
    set level0 : List ℤ := (List.range size).map fun i =>
      if i < leavesBits.length then hashLeaf (leavesBits.getD i 0) else padLeaf
      with hl0
    have hhead : t.levels.headD [] = level0 := by
      rw [← ht]
      exact buildLevelsAux_headD hashMerge level0.length level0
    rw [hhead]
    refine ⟨by simp [hl0], fun i hi => ?_⟩
    simp [hl0, List.getD_eq_getElem?_getD, List.getElem?_map, List.getElem?_range hi]

/-- C8 counterexample: at `size = 0` (with no leaves) the Go code returns
a tree, although 0 is not a power of two — the claim's "error iff size is
not a power of two or input too long" demands an error here. -/
theorem C8_counterexample :
    buildFixedTree wHL wHM [] 0 0 = .ok ⟨0, [[]]⟩ ∧ ¬∃ k, (0 : ℕ) = 2 ^ k := by
  refine ⟨rfl, ?_⟩
  rintro ⟨k, hk⟩
  have hpos : 0 < 2 ^ k := Nat.pos_pow_of_pos k (by norm_num)
  omega

theorem C8_build_error_iff_witness :
    (∃ e, buildFixedTree wHL wHM [1] 3 0 = .error e) ∧
    buildFixedTree wHL wHM [1] 2 7 = .ok ⟨1, [[wHL 1, 7], [wHM (wHL 1) 7]]⟩ := by
  constructor
  · exact ((C8_build_error_iff wHL wHM [1] 3 0).1).mpr
      (Or.inl ⟨by decide, by rintro ⟨k, hk⟩; rcases k with _ | _ | k <;> simp [pow_succ] at hk <;> omega⟩)
  · rfl

/-! ## Claim C7 — Commit validation ordering -/

/-- C7: `Commit` fails exactly when the board is invalid or one of the
later steps (tree build, salt sampling via `crypto/rand`, key setup)
fails; on an invalid board it fails with the validation error itself,
whatever the hash functions and external outcomes are — no tree is built
and nothing is hashed before validation. -/
theorem C7_commit_validation (hashLeaf : ℕ → ℤ) (hashMerge : ℤ → ℤ → ℤ)
    (randRes : Except String (List ℕ)) (keysRes : Except String Unit) (b : Board) :
    ((∃ e, commit hashLeaf hashMerge randRes keysRes b = .error e) ↔
      (∃ e, b.validate = .error e) ∨
      (∃ e, buildFixedTree hashLeaf hashMerge b.flatten 128 (hashLeaf 0) = .error e) ∨
      (∃ e, randRes = .error e) ∨ (∃ e, keysRes = .error e)) ∧
    (∀ e, b.validate = .error e →
      commit hashLeaf hashMerge randRes keysRes b = .error e) := by
  constructor
  · cases hval : b.validate with
    | error e => simp [commit, hval]
    | ok u =>
      cases u
      cases hbuild : buildFixedTree hashLeaf hashMerge b.flatten 128 (hashLeaf 0) with
      | error e => simp [commit, hval, hbuild]
      | ok t =>
        cases randRes with
        | error e => simp [commit, hval, hbuild]
        | ok saltBytes =>
          cases keysRes with
          | error e => simp [commit, hval, hbuild]
          | ok u2 => cases u2; simp [commit, hval, hbuild]
  · intro e hval
    simp [commit, hval]

theorem C7_commit_validation_witness :
    commit wHL wHM (.ok (List.replicate 32 0)) (.ok ()) c7Bad =
      .error ("board has non-binary cell") :=
  (C7_commit_validation wHL wHM (.ok (List.replicate 32 0)) (.ok ()) c7Bad).2
    ("board has non-binary cell") rfl

/-! ## Claim C5 — salt interpretation in Commit -/

theorem natFromBytes_foldl_lt :
    ∀ (bs : List ℕ) (a : ℕ), (∀ b ∈ bs, b < 256) →
      bs.foldl (fun x y => x * 256 + y) a < (a + 1) * 256 ^ bs.length := by
  intro bs
  induction bs with
  | nil => intro a _; simpa using Nat.lt_succ_self a
  | cons b rest ih =>
    intro a hb
    have hb0 : b < 256 := hb b (List.mem_cons_self b rest)
    have hrec := ih (a * 256 + b) fun x hx => hb x (List.mem_cons_of_mem b hx)
    calc (b :: rest).foldl (fun x y => x * 256 + y) a
        = rest.foldl (fun x y => x * 256 + y) (a * 256 + b) := rfl
      _ < (a * 256 + b + 1) * 256 ^ rest.length := hrec
      _ ≤ ((a + 1) * 256) * 256 ^ rest.length :=
          Nat.mul_le_mul_right _ (by omega)
      _ = (a + 1) * 256 ^ (rest.length + 1) := by ring

theorem natFromBytes_lt (bs : List ℕ) (hb : ∀ b ∈ bs, b < 256) :
    natFromBytes bs < 256 ^ bs.length := by
  have := natFromBytes_foldl_lt bs 0 hb
  simpa [natFromBytes] using this

theorem natFromBytes_natToBytesBE :
    ∀ (d n : ℕ), n < 256 ^ d → natFromBytes (natToBytesBE d n) = n := by
  intro d
  induction d with
  | zero => intro n hn; interval_cases n; rfl
  | succ d ih =>
    intro n hn
    have hdiv : n / 256 < 256 ^ d := by
      rw [Nat.div_lt_iff_lt_mul (by norm_num)]
      calc n < 256 ^ (d + 1) := hn
        _ = 256 ^ d * 256 := by ring
    have : natFromBytes (natToBytesBE d (n / 256) ++ [n % 256]) =
        natFromBytes (natToBytesBE d (n / 256)) * 256 + n % 256 := by
      simp [natFromBytes, List.foldl_append]
    rw [natToBytesBE, this, ih (n / 256) hdiv]
    omega

/-- C5: `Commit` interprets the 32 sampled bytes as the unsigned 256-bit
salt without any rejection path; the native node hash absorbs that salt
reduced modulo the field order (so the element fed to the sponge is
canonical), and the published commitment is exactly
`H_node(salt, treeRoot)` of the freshly built tree. -/
theorem C5_salt_canonical (mimc2 : ℕ → ℕ → ℕ) (hashLeaf : ℕ → ℤ)
    (b : Board) (bytes : List ℕ) (hlen : bytes.length = 32)
    (hbyte : ∀ x ∈ bytes, x < 256) (hval : b.validate = .ok ()) :
    (mimcAbsorbBlock (feBytes (natFromBytes bytes)) = natFromBytes bytes % bn254 ∧
      mimcAbsorbBlock (feBytes (natFromBytes bytes)) < bn254) ∧
    (∀ X : ℤ, hashNodeMiMC mimc2 ((natFromBytes bytes : ℕ) : ℤ) X =
      (mimc2 (natFromBytes bytes % bn254) (mimcAbsorbBlock (feBytes X.natAbs)) : ℤ)) ∧
    (∀ t, buildFixedTree hashLeaf (hashNodeMiMC mimc2) b.flatten 128 (hashLeaf 0) =
        .ok t →
      commit hashLeaf (hashNodeMiMC mimc2) (.ok bytes) (.ok ()) b =
        .ok ⟨"0x" ++ intToHex (hashNodeMiMC mimc2 ((natFromBytes bytes : ℕ) : ℤ) t.root),
          ⟨b, t, "0x" ++ natToHex (natFromBytes bytes)⟩⟩) := by
  have hsz : natFromBytes bytes < 256 ^ 32 := by
    have := natFromBytes_lt bytes hbyte
    rwa [hlen] at this
  have habs : mimcAbsorbBlock (feBytes (natFromBytes bytes)) =
      natFromBytes bytes % bn254 := by
    rw [mimcAbsorbBlock, feBytes, natFromBytes_natToBytesBE 32 _ hsz]
  refine ⟨⟨habs, ?_⟩, ?_, ?_⟩
  · rw [habs]
    exact Nat.mod_lt _ (by norm_num [bn254])
  · intro X
    rw [hashNodeMiMC, Int.natAbs_ofNat, habs]
  · intro t ht
    simp [commit, hval, ht]

theorem C5_salt_canonical_witness :
    (mimcAbsorbBlock (feBytes (natFromBytes c5Bytes)) = natFromBytes c5Bytes % bn254 ∧
      mimcAbsorbBlock (feBytes (natFromBytes c5Bytes)) < bn254) ∧
    commit wHL (hashNodeMiMC c5M2) (.ok c5Bytes) (.ok ()) c5Board =
      .ok ⟨"0x" ++ intToHex (hashNodeMiMC c5M2 ((natFromBytes c5Bytes : ℕ) : ℤ) c5Tree.root),
        ⟨c5Board, c5Tree, "0x" ++ natToHex (natFromBytes c5Bytes)⟩⟩ :=
  have h := C5_salt_canonical c5M2 wHL c5Board c5Bytes rfl (by decide) rfl
  ⟨h.1, h.2.2 c5Tree rfl⟩

/-! ## Claim C6 — Shoot public outputs -/

theorem proveShot_ok_shape (compileRes pkRes witRes : Option String)
    (proveRes : Except String (List ℕ)) (hashNode : ℤ → ℤ → ℤ)
    (bit idx : ℕ) (path : List ℤ) (dir : List ℕ) (root salt : ℤ)
    (pr : List ℕ × ShotPublic)
    (h : proveShot compileRes pkRes witRes proveRes hashNode
        bit idx path dir root salt = .ok pr) :
    pr.2 = ⟨some (hashNode salt root), bit, idx / 10, idx % 10⟩ := by
  rw [proveShot] at h
  split_ifs at h
  cases compileRes with
  | some e => simp at h
  | none =>
    cases pkRes with
    | some e => simp at h
    | none =>
      cases witRes with
      | some e => simp at h
      | none =>
        cases proveRes with
        | error e => simp at h
        | ok proofBytes =>
          simp only [Except.ok.injEq] at h
          rw [← h]

/-- C6: whenever `Shoot` succeeds, the payload's public outputs are
`hit = Board.Cells[row][col]`, `row`, `col`, and a root the component
computed itself as `H_node(salt, treeRoot)` from the bundle's parsed salt
and tree (no caller-supplied root exists in the interface); the returned
`Bit` equals `Public.Hit`. -/
theorem C6_shoot_outputs (compileRes pkRes witRes : Option String)
    (proveRes : Except String (List ℕ)) (hashNode : ℤ → ℤ → ℤ)
    (sec : Secret) (row col : ℤ) (res : ShootResult)
    (h : shoot compileRes pkRes witRes proveRes hashNode sec row col = .ok res) :
    res.payload.public.hit = sec.board.cells row.toNat col.toNat ∧
    res.bit = res.payload.public.hit ∧
    res.payload.public.row = row.toNat ∧
    res.payload.public.col = col.toNat ∧
    ∃ salt, parseHexNat (sec.saltHex.drop 2) = some salt ∧
      res.payload.public.root = some (hashNode (salt : ℤ) sec.tree.root) := by
  rw [shoot] at h
  split_ifs at h with hrange hsalt
  push_neg at hrange
  obtain ⟨hr0, hr9, hc0, hc9⟩ := hrange
  cases hparse : parseHexNat (sec.saltHex.drop 2) with
  | none =>
    simp only [hparse] at h
    exact absurd h (by simp)
  | some salt =>
    simp only [hparse] at h
    cases hpath : sec.tree.path ((row * 10 + col).toNat) with
    | error e =>
      simp only [hpath] at h
      exact absurd h (by simp)
    | ok pd =>
      obtain ⟨path, dir⟩ := pd
      simp only [hpath] at h
      split_ifs at h with hlen
      cases hps : proveShot compileRes pkRes witRes proveRes hashNode
          (sec.board.cells row.toNat col.toNat) ((row * 10 + col).toNat)
          path dir sec.tree.root (salt : ℤ) with
      | error e =>
        simp only [hps] at h
        exact absurd h (by simp)
      | ok pr =>
        simp only [hps] at h
        obtain ⟨proof, pub⟩ := pr
        simp only [Except.ok.injEq] at h
        have hpub := proveShot_ok_shape compileRes pkRes witRes proveRes hashNode
          (sec.board.cells row.toNat col.toNat) ((row * 10 + col).toNat)
          path dir sec.tree.root (salt : ℤ) (proof, pub) hps
        simp only at hpub
        have hdiv : (row * 10 + col).toNat / 10 = row.toNat := by omega
        have hmod : (row * 10 + col).toNat % 10 = col.toNat := by omega
        rw [← h]
        refine ⟨?_, ?_, ?_, ?_, salt, rfl, ?_⟩
        · simp [hpub]
        · simp [hpub]
        · simp [hpub, hdiv]
        · simp [hpub, hmod]
        · simp [hpub]

set_option maxRecDepth 8000 in
theorem C6_shoot_outputs_witness :
    shoot none none none (.ok [9]) wHM c6Secret 0 1 = .ok c6Res ∧
    (c6Res.payload.public.hit = c6Secret.board.cells 0 1 ∧
      c6Res.bit = c6Res.payload.public.hit ∧
      c6Res.payload.public.row = 0 ∧
      c6Res.payload.public.col = 1 ∧
      ∃ salt, parseHexNat (c6Secret.saltHex.drop 2) = some salt ∧
        c6Res.payload.public.root = some (wHM (salt : ℤ) c6Secret.tree.root)) :=
  ⟨rfl, C6_shoot_outputs none none none (.ok [9]) wHM c6Secret 0 1 c6Res rfl⟩

/-! ## Claim C10 — generated boards validate -/

theorem list_range_map_sum (n : ℕ) (f : ℕ → ℕ) :
    ((List.range n).map f).sum = ∑ i ∈ Finset.range n, f i := by
  induction n with
  | zero => rfl
  | succ n ih =>
    rw [List.range_succ, List.map_append, List.sum_append, Finset.sum_range_succ, ih]
    simp

theorem sum_grid (f : ℕ → ℕ → ℕ) :
    ∑ k ∈ Finset.range 100, f (k / 10) (k % 10) =
      ∑ r ∈ Finset.range 10, ∑ c ∈ Finset.range 10, f r c := by
  rw [← Finset.sum_product']
  apply Finset.sum_nbij' (fun k => (k / 10, k % 10)) (fun p => p.1 * 10 + p.2)
  · intro a ha
    simp only [Finset.mem_range] at ha
    simp only [Finset.mem_product, Finset.mem_range]
    omega
  · intro a ha
    simp only [Finset.mem_product, Finset.mem_range] at ha
    simp only [Finset.mem_range]
    omega
  · intro a ha
    simp only [Finset.mem_range] at ha
    omega
  · intro a ha
    simp only [Finset.mem_product, Finset.mem_range] at ha
    simp only [Prod.ext_iff]
    constructor <;> omega
  · intro a _
    rfl

theorem flatten_sum_eq_cellSum (b : Board) : b.flatten.sum = cellSum b := by
  rw [Board.flatten, cellSum, list_range_map_sum]
  exact sum_grid fun r c => b.cells r c

theorem run_count_vert (r c L : ℕ) (hc : c < 10) (hrL : r + L ≤ 10) :
    (∑ i ∈ Finset.range 10, ∑ j ∈ Finset.range 10,
      if j = c ∧ r ≤ i ∧ i < r + L then 1 else 0) = L := by
  have hinner : ∀ i, (∑ j ∈ Finset.range 10,
      if j = c ∧ r ≤ i ∧ i < r + L then 1 else 0) =
      if r ≤ i ∧ i < r + L then 1 else 0 := by
    intro i
    by_cases hri : r ≤ i ∧ i < r + L
    · simp only [hri, and_true]
      rw [Finset.sum_ite_eq' (Finset.range 10) c fun _ => 1]
      simp [hc]
    · have hall : ∀ j, ¬(j = c ∧ r ≤ i ∧ i < r + L) := fun j hj => hri hj.2
      simp [hall, hri]
  simp_rw [hinner]
  have hfilter : (Finset.range 10).filter (fun i => r ≤ i ∧ i < r + L) =
      Finset.Ico r (r + L) := by
    ext x
    simp only [Finset.mem_filter, Finset.mem_range, Finset.mem_Ico]
    omega
  rw [Finset.sum_boole, hfilter]
  simp [Nat.card_Ico]

theorem run_count_horiz (r c L : ℕ) (hr : r < 10) (hcL : c + L ≤ 10) :
    (∑ i ∈ Finset.range 10, ∑ j ∈ Finset.range 10,
      if i = r ∧ c ≤ j ∧ j < c + L then 1 else 0) = L := by
  have hinner : ∀ i, (∑ j ∈ Finset.range 10,
      if i = r ∧ c ≤ j ∧ j < c + L then 1 else 0) =
      if i = r then L else 0 := by
    intro i
    by_cases hir : i = r
    · simp only [hir, true_and, if_pos rfl]
      have hfilter : (Finset.range 10).filter (fun j => c ≤ j ∧ j < c + L) =
          Finset.Ico c (c + L) := by
        ext x
        simp only [Finset.mem_filter, Finset.mem_range, Finset.mem_Ico]
        omega
      rw [Finset.sum_boole, hfilter]
      simp [Nat.card_Ico]
    · simp [hir]
  simp_rw [hinner]
  rw [Finset.sum_ite_eq' (Finset.range 10) r fun _ => L]
  simp [hr]

theorem tryPlace_cellSum (b : Board) (vert : Bool) (r c L : ℕ) (b2 : Board)
    (hr : r < 10) (hc : c < 10)
    (hbin : ∀ i j, b.cells i j = 0 ∨ b.cells i j = 1)
    (h : tryPlace b vert r c L = some b2) :
    (∀ i j, b2.cells i j = 0 ∨ b2.cells i j = 1) ∧
      cellSum b2 = cellSum b + L := by
  rw [tryPlace] at h
  split_ifs at h with hv hbound hov hbound2 hov2
  · -- vertical placement
    simp only [Option.some.injEq] at h
    subst h
    have hempty : ∀ i, r ≤ i → i < r + L → b.cells i c = 0 := by
      intro i hi1 hi2
      have hnot : ¬(b.cells (r + (i - r)) c == 1) = true := by
        intro hcon
        apply hov
        simp only [List.any_eq_true, List.mem_range]
        exact ⟨i - r, by omega, hcon⟩
      have hri : r + (i - r) = i := by omega
      rw [hri, beq_iff_eq] at hnot
      rcases hbin i c with h0 | h1
      · exact h0
      · exact absurd h1 hnot
    constructor
    · intro i j
      by_cases hcond : j = c ∧ r ≤ i ∧ i < r + L
      · simp [hcond]
      · simp only [hcond, if_neg, if_false]
        exact hbin i j
    · have hsplit : ∀ i j,
          (if j = c ∧ r ≤ i ∧ i < r + L then 1 else b.cells i j) =
            b.cells i j + (if j = c ∧ r ≤ i ∧ i < r + L then 1 else 0) := by
        intro i j
        by_cases hcond : j = c ∧ r ≤ i ∧ i < r + L
        · rw [if_pos hcond, if_pos hcond, hcond.1, hempty i hcond.2.1 hcond.2.2]
        · rw [if_neg hcond, if_neg hcond, Nat.add_zero]
      simp only [cellSum]
      simp_rw [hsplit]
      simp only [Finset.sum_add_distrib]
      rw [run_count_vert r c L hc (by omega)]
  · -- horizontal placement
    simp only [Option.some.injEq] at h
    subst h
    have hempty : ∀ j, c ≤ j → j < c + L → b.cells r j = 0 := by
      intro j hj1 hj2
      have hnot : ¬(b.cells r (c + (j - c)) == 1) = true := by
        intro hcon
        apply hov2
        simp only [List.any_eq_true, List.mem_range]
        exact ⟨j - c, by omega, hcon⟩
      have hcj : c + (j - c) = j := by omega
      rw [hcj, beq_iff_eq] at hnot
      rcases hbin r j with h0 | h1
      · exact h0
      · exact absurd h1 hnot
    constructor
    · intro i j
      by_cases hcond : i = r ∧ c ≤ j ∧ j < c + L
      · simp [hcond]
      · simp only [hcond, if_neg, if_false]
        exact hbin i j
    · have hsplit : ∀ i j,
          (if i = r ∧ c ≤ j ∧ j < c + L then 1 else b.cells i j) =
            b.cells i j + (if i = r ∧ c ≤ j ∧ j < c + L then 1 else 0) := by
        intro i j
        by_cases hcond : i = r ∧ c ≤ j ∧ j < c + L
        · rw [if_pos hcond, if_pos hcond, hcond.1, hempty j hcond.2.1 hcond.2.2]
        · rw [if_neg hcond, if_neg hcond, Nat.add_zero]
      simp only [cellSum]
      simp_rw [hsplit]
      simp only [Finset.sum_add_distrib]
      rw [run_count_horiz r c L hr (by omega)]

theorem genAux_ok (rng : ℕ → Bool × Fin 10 × Fin 10) :
    ∀ (fuel : ℕ) (ships : List ℕ) (k : ℕ) (b bfin : Board),
      (∀ i j, b.cells i j = 0 ∨ b.cells i j = 1) →
      genAux rng fuel ships k b = .ok bfin →
      (∀ i j, bfin.cells i j = 0 ∨ bfin.cells i j = 1) ∧
        cellSum bfin = cellSum b + ships.sum := by
  intro fuel
  induction fuel with
  | zero =>
    intro ships k b bfin hbin h
    cases ships with
    | nil =>
      simp only [genAux, Except.ok.injEq] at h
      subst h
      exact ⟨hbin, by simp⟩
    | cons L rest => simp [genAux] at h
  | succ fuel ih =>
    intro ships k b bfin hbin h
    cases ships with
    | nil =>
      simp only [genAux, Except.ok.injEq] at h
      subst h
      exact ⟨hbin, by simp⟩
    | cons L rest =>
      simp only [genAux] at h
      cases htp : tryPlace b (rng k).1 (rng k).2.1.val (rng k).2.2.val L with
      | none =>
        rw [htp] at h
        exact ih (L :: rest) (k + 1) b bfin hbin h
      | some b2 =>
        rw [htp] at h
        have hp := tryPlace_cellSum b (rng k).1 (rng k).2.1.val (rng k).2.2.val L b2
          (rng k).2.1.isLt (rng k).2.2.isLt hbin htp
        have hrec := ih rest (k + 1) b2 bfin hp.1 h
        refine ⟨hrec.1, ?_⟩
        rw [hrec.2, hp.2, List.sum_cons]
        omega

/-- C10: whenever `GenerateRandomBoard` (the implementation behind
`InitBoard`) returns a board, that board passes `Validate`: every cell is
0 or 1 and the cells total exactly 17 (= 5+4+3+3+2, ships placed without
overlap), so `Commit`'s validation step accepts it. -/
theorem C10_random_board_validates (rng : ℕ → Bool × Fin 10 × Fin 10)
    (b : Board) (h : generateRandomBoard rng = .ok b) :
    b.validate = .ok () := by
  have hz : ∀ i j, (Board.mk fun _ _ => 0).cells i j = 0 ∨
      (Board.mk fun _ _ => 0).cells i j = 1 := fun i j => Or.inl rfl
  have hinv := genAux_ok rng 10001 shipSizes 0 ⟨fun _ _ => 0⟩ b hz h
  have hsum : cellSum b = 17 := by
    rw [hinv.2]
    simp [cellSum, shipSizes]
  rw [Board.validate, if_neg ?hany, if_pos ?hsum17]
  case hsum17 => rw [flatten_sum_eq_cellSum, hsum]
  case hany =>
    simp only [List.any_eq_true, Board.flatten, List.mem_map, List.mem_range,
      not_exists]
    rintro v ⟨⟨kk, hkk, rfl⟩, hbad⟩
    rcases hinv.1 (kk / 10) (kk % 10) with h0 | h1
    · simp [h0] at hbad
    · simp [h1] at hbad

theorem C10_random_board_validates_witness :
    generateRandomBoard c10Rng = .ok c10Board ∧ c10Board.validate = .ok () :=
  ⟨rfl, C10_random_board_validates c10Rng c10Board rfl⟩

end BattleshipZK
